import Mathlib

/-!
Verification of the Autonomous Task Intelligence Engine core against its
design specification.  The definitions below are a shallow embedding of the
Python source of the repository (gantt_agent.py, main.py, routes/tasks.py,
services/performance_service.py, services/agentic_completion.py): pure
functions become Lean functions, dictionary state becomes explicit
association lists, and float arithmetic is idealized as exact real (or
rational) arithmetic.
-/

namespace AEIP

/- ==================================================================
   ScheduleGraphAnalyzer — gantt_agent.py, class DependencyImpactAnalysis
   ================================================================== -/
namespace Gantt

/-- Input task, the fields used by `DependencyImpactAnalysis`
(`Task.id`, `Task.estimatedDuration`, `Task.dependencies`). -/
structure Task where
  id : String
  estimatedDuration : Int
  dependencies : List String
deriving DecidableEq

/-- Directed graph as built by `_build_graph`: node list in insertion order,
a `duration` attribute per node, and an edge list in insertion order
(networkx dedups repeated edges, and adjacency dicts keep insertion order). -/
structure Graph where
  nodes : List String
  durations : List (String × Int)
  edges : List (String × String)
deriving DecidableEq

/-- Association-list update, mirroring attribute update of an existing
networkx node (position kept, value replaced). -/
def setDur : List (String × Int) → String → Int → List (String × Int)
  | [], v, d => [(v, d)]
  | (a, b) :: rest, v, d => if a = v then (v, d) :: rest else (a, b) :: setDur rest v d

/-- networkx `add_node(id, duration=...)`: a new node is appended, an
existing node keeps its position and gets its attribute updated. -/
def addNode (g : Graph) (v : String) (dur : Int) : Graph :=
  if v ∈ g.nodes then { g with durations := setDur g.durations v dur }
  else { nodes := g.nodes ++ [v], durations := g.durations ++ [(v, dur)], edges := g.edges }

/-- networkx `add_edge` inserts missing endpoints as attribute-less nodes. -/
def ensureNode (g : Graph) (v : String) : Graph :=
  if v ∈ g.nodes then g else { g with nodes := g.nodes ++ [v] }

/-- networkx `add_edge(u, v)`: endpoints are added if missing, a repeated
edge is a no-op. -/
def addEdge (g : Graph) (u v : String) : Graph :=
  let g1 := ensureNode (ensureNode g u) v
  if (u, v) ∈ g1.edges then g1 else { g1 with edges := g1.edges ++ [(u, v)] }

/-- `_build_graph`: one node per task (with its duration), one edge
dependency → dependent for every dependency id that is among the supplied
task ids (`if dep_id in self.tasks`; the id dict is built before the loop,
so the check sees every task id). -/
def buildGraph (tasks : List Task) : Graph :=
  let ids := tasks.map Task.id
  tasks.foldl
    (fun g t =>
      let g1 := addNode g t.id t.estimatedDuration
      t.dependencies.foldl (fun g2 dep => if dep ∈ ids then addEdge g2 dep t.id else g2) g1)
    { nodes := [], durations := [], edges := [] }

/-- Predecessor list of a node, in edge insertion order (the iteration
order of the networkx `G.pred[v]` dict). -/
def preds (g : Graph) (v : String) : List String :=
  (g.edges.filter (fun e => e.2 = v)).map Prod.fst

/-- Successor list of a node, in edge insertion order (the iteration order
of `self.graph.successors(current_id)`). -/
def succs (g : Graph) (v : String) : List String :=
  (g.edges.filter (fun e => e.1 = v)).map Prod.snd

/-- One round of Kahn-style topological sorting: the first remaining node
with no incoming edge from a remaining node.  `nx.topological_sort` emits
some valid topological order; any valid order yields the same longest-path
distances, so the model fixes this one.  On a cyclic remainder there is no
such node and the sort stops short (the point where networkx raises
`NetworkXUnfeasible`). -/
def pickReady (edges : List (String × String)) (remaining : List String) : Option String :=
  remaining.find? (fun v => !(edges.any (fun e => e.2 == v && decide (e.1 ∈ remaining))))

def topoAux (edges : List (String × String)) : Nat → List String → List String
  | 0, _ => []
  | fuel + 1, remaining =>
    match pickReady edges remaining with
    | none => []
    | some v => v :: topoAux edges fuel (remaining.erase v)

def topoSort (g : Graph) : List String :=
  topoAux g.edges g.nodes.length g.nodes

/-- The graph has a cycle exactly when the topological sort cannot emit
every node; this is the condition under which `nx.topological_sort` (and
hence `nx.dag_longest_path`) raises `NetworkXUnfeasible`. -/
def hasCycle (g : Graph) : Bool :=
  (topoSort g).length ≠ g.nodes.length

/-- Python `max` over a nonempty list keyed by the first component: the
first maximal element wins (a later element replaces the current best only
when strictly greater). -/
def maxByFirst : Int × String → List (Int × String) → Int × String
  | best, [] => best
  | best, x :: rest => if x.1 > best.1 then maxByFirst x rest else maxByFirst best rest

def lookupD (dist : List (String × (Int × String))) (v : String) (dflt : Int × String) :
    Int × String :=
  match dist.find? (fun p => p.1 = v) with
  | some p => p.2
  | none => dflt

/-- Distance pass of `nx.dag_longest_path`: walking a topological order,
`dist[v]` is the best `(length, predecessor)` over incoming edges, where
each edge contributes `default_weight = 1` — the call site passes no
weights, so the node `duration` attribute is never consulted.  A node with
no predecessors gets `(0, v)` (the source guard `maxu[0] >= 0` is always
met since weights are 1). -/
def computeDist (g : Graph) : List String → List (String × (Int × String)) →
    List (String × (Int × String))
  | [], dist => dist
  | v :: rest, dist =>
    let us := (preds g v).map (fun u => ((lookupD dist u (0, u)).1 + 1, u))
    let entry :=
      match us with
      | [] => ((0 : Int), v)
      | x :: xs => maxByFirst x xs
    computeDist g rest (dist ++ [(v, entry)])

/-- Python `max(dist, key=...)`: first key of maximal distance, in the
insertion order of the `dist` dict (= the topological order). -/
def argmaxDist : String → Int → List (String × (Int × String)) → String
  | best, _, [] => best
  | best, bestD, (v, e) :: rest =>
    if e.1 > bestD then argmaxDist v e.1 rest else argmaxDist best bestD rest

/-- Backtracking loop of `nx.dag_longest_path`: follow stored predecessors
until a node points to itself, then reverse.  Fuel bounds the walk (in the
acyclic case each step moves strictly earlier in the topological order). -/
def backtrack (dist : List (String × (Int × String))) : Nat → String → List String
  | 0, v => [v]
  | fuel + 1, v =>
    let p := (lookupD dist v (0, v)).2
    if p = v then [v] else backtrack dist fuel p ++ [v]

/-- `nx.dag_longest_path(G)` with the default `weight="weight"`,
`default_weight=1` — the longest path by edge count, not by duration. -/
def dagLongestPath (g : Graph) : List String :=
  let dist := computeDist g (topoSort g) []
  match dist with
  | [] => []
  | (v, e) :: rest => backtrack dist dist.length (argmaxDist v e.1 rest)

/-- `calculate_critical_path`: empty task set returns `[]`; the
`try/except nx.NetworkXUnfeasible` around `nx.dag_longest_path` returns
`[]` exactly when the graph has a cycle. -/
def calculate_critical_path (tasks : List Task) : List String :=
  let g := buildGraph tasks
  if tasks = [] then []
  else if hasCycle g then []
  else dagLongestPath g

/-- Inner loop of the BFS in `simulate_delay`: for each successor not yet
visited, mark it visited and enqueue it with the current delay. -/
def enqueueSuccs (d : Int) : List String → List (String × Int) → List String →
    List (String × Int) × List String
  | [], q, vis => (q, vis)
  | s :: rest, q, vis =>
    if s ∈ vis then enqueueSuccs d rest q vis
    else enqueueSuccs d rest (q ++ [(s, d)]) (vis ++ [s])

/-- BFS loop of `simulate_delay`: pop the front of the queue, record the
impact unless the popped node is the origin, enqueue unvisited successors
with the same delay.  Fuel bounds the iteration count (each iteration pops
one element and every node is enqueued at most once). -/
def bfsLoop (g : Graph) (origin : String) :
    Nat → List (String × Int) → List String → List (String × Int) → List (String × Int)
  | 0, _, _, acc => acc
  | _ + 1, [], _, acc => acc
  | fuel + 1, (cur, cd) :: rest, vis, acc =>
    let acc1 := if cur = origin then acc else acc ++ [(cur, cd)]
    let qv := enqueueSuccs cd (succs g cur) rest vis
    bfsLoop g origin fuel qv.1 qv.2 acc1

/-- `simulate_delay(delayed_task_id, delay_minutes)`: empty mapping for an
id outside the graph, otherwise BFS from the origin over successor edges,
assigning the (never compounded) delay to each reached node other than the
origin.  The fuel `edges.length + 1` dominates the true iteration count. -/
def simulate_delay (g : Graph) (tid : String) (d : Int) : List (String × Int) :=
  if tid ∈ g.nodes then bfsLoop g tid (g.edges.length + 1) [(tid, d)] [tid] []
  else []

/-- Duration attribute of a node (0 when absent, as for an attribute-less
networkx node). -/
def durOf (g : Graph) (v : String) : Int :=
  match g.durations.find? (fun p => p.1 = v) with
  | some p => p.2
  | none => 0

/-- A nonempty node sequence whose consecutive pairs are all edges of the
graph: a dependency path. -/
def isChain (g : Graph) : List String → Bool
  | [] => false
  | [v] => v ∈ g.nodes
  | v :: w :: rest => (v, w) ∈ g.edges && isChain g (w :: rest)

/-- Summed `estimatedDuration` along a node sequence — the quantity the
specification says `criticalPath()` maximizes. -/
def pathDuration (g : Graph) (path : List String) : Int :=
  (path.map (durOf g)).sum

/-- Successor-edge step relation of the dependency graph. -/
def Step (g : Graph) (x y : String) : Prop :=
  y ∈ succs g x

end Gantt

/- ==================================================================
   MemoryIndex — main.py (FAISS index + id map + memory store)
   ================================================================== -/
namespace Mem

/-- Pydantic `MemoryMetadata`. -/
structure MemoryMetadata where
  user_id : Option String
  dept_id : Option String
  task_type : Option String
  timestamp : Option Int
deriving DecidableEq

/-- Pydantic `Memory`. -/
structure Memory where
  id : String
  text : String
  metadata : MemoryMetadata
deriving DecidableEq

/-- Global stores of main.py: the FAISS vector list, the FAISS-position →
memory-id list, and the id → Memory dict (insertion-ordered, assignment
overwrites in place). -/
structure RagState where
  index : List (List ℝ)
  id_map : List String
  memory_store : List (String × Memory)

def emptyState : RagState := { index := [], id_map := [], memory_store := [] }

/-- Python dict assignment `memory_store[m.id] = m`: overwrite in place if
the key exists, append otherwise. -/
def dictSet : List (String × Memory) → String → Memory → List (String × Memory)
  | [], k, m => [(k, m)]
  | (a, b) :: rest, k, m => if a = k then (k, m) :: rest else (a, b) :: dictSet rest k m

/-- Sum of squares of a vector, the square of its L2 norm. -/
noncomputable def sumSq (v : List ℝ) : ℝ :=
  (v.map (fun x => x * x)).sum

/-- `faiss.normalize_L2` on a one-row matrix: divide each entry by the L2
norm of the row. -/
noncomputable def normalize_L2 (v : List ℝ) : List ℝ :=
  v.map (fun x => x / Real.sqrt (sumSq v))

/-- `get_embedding` of main.py.  The source encodes the text, then calls
`faiss.normalize_L2(np.array([vec]).astype('float32'))` — `np.array` makes
a fresh copy, `normalize_L2` normalizes that copy in place, and the copy is
discarded — and returns the original `vec`.  The returned vector is the
raw encoder output, not the normalized one.  (The bulk `/init` path, by
contrast, normalizes the stored matrix itself.) -/
noncomputable def get_embedding (enc : String → List ℝ) (text : String) : List ℝ :=
  let vec := enc text
  let _discarded_normalized_copy := normalize_L2 vec
  vec

/-- The normalization the specification describes for `get_embedding`
(modelled from the spec wording: embed the text, then L2-normalize the
vector that is returned and stored). -/
noncomputable def get_embedding_spec (enc : String → List ℝ) (text : String) : List ℝ :=
  normalize_L2 (enc text)

/-- `add_memory` of main.py.  The duplicate-id branch reads
`if memory.id in memory_store: pass` — the comment says the id should be
skipped, but control falls through, so the function embeds and appends
unconditionally: the FAISS index gains a row, `id_map` gains an entry, and
the store entry is overwritten. -/
noncomputable def add_memory (enc : String → List ℝ) (st : RagState) (m : Memory) :
    RagState :=
  let _dup_check_is_a_no_op := m.id ∈ st.memory_store.map Prod.fst
  let vec := get_embedding enc m.text
  { index := st.index ++ [vec]
    id_map := st.id_map ++ [m.id]
    memory_store := dictSet st.memory_store m.id m }

end Mem

/- ==================================================================
   AssignmentScorer — routes/tasks.py, create_task auto-assignment loop
   ================================================================== -/
namespace Assign

/-- Candidate view of a user document during auto-assignment.
`activeTaskCount` is the CREATED/IN_PROGRESS task count the loop reads
fresh from the database for each candidate. -/
structure Candidate where
  id : String
  role : String
  skills : List String
  reliabilityScore : ℚ
  deptId : Option String
  activeTaskCount : ℕ
deriving DecidableEq

/-- The task fields the auto-assignment loop reads. -/
structure TaskSpec where
  requiredSkills : List String
  deptId : Option String
deriving DecidableEq

/-- `len(user_skills.intersection(required_skills))`: the number of
distinct skills common to the candidate and the requirement. -/
def interCount (c : Candidate) (t : TaskSpec) : ℕ :=
  (c.skills.dedup.filter (fun s => s ∈ t.requiredSkills)).length

/-- `len(required_skills)` for the Python set of required skills. -/
def requiredCount (t : TaskSpec) : ℕ :=
  t.requiredSkills.dedup.length

/-- The `if not intersection: continue` guard. -/
def hasSkillMatch (c : Candidate) (t : TaskSpec) : Bool :=
  interCount c t ≠ 0

def skillScore (c : Candidate) (t : TaskSpec) : ℚ :=
  (interCount c t : ℚ) / (requiredCount t : ℚ)

/-- `max(0, 1 - (active_tasks / 5))`. -/
def workloadScore (c : Candidate) : ℚ :=
  max 0 (1 - (c.activeTaskCount : ℚ) / 5)

def roleBonus (c : Candidate) : ℚ :=
  if c.role = "ASSIGNEE" then 0.1 else 0

def contextBonus (c : Candidate) (t : TaskSpec) : ℚ :=
  if c.deptId = t.deptId then 0.1 else 0

/-- The weighted score of the source: skills 40%, reliability 40%,
workload 20%, plus the role and same-department bonuses. -/
def score (c : Candidate) (t : TaskSpec) : ℚ :=
  skillScore c t * 0.4 + c.reliabilityScore * 0.4 + workloadScore c * 0.2 +
    roleBonus c + contextBonus c t

/-- The candidate loop of create_task: starting from
`best_score = -1.0`, `best_match = None`, skip candidates with an empty
skill intersection, and replace the best only on a strictly greater
score. -/
def selectLoop (t : TaskSpec) : List Candidate → ℚ → Option Candidate → Option Candidate
  | [], _, best => best
  | c :: rest, bestScore, best =>
    if hasSkillMatch c t then
      if score c t > bestScore then selectLoop t rest (score c t) (some c)
      else selectLoop t rest bestScore best
    else selectLoop t rest bestScore best

/-- Auto-assignment: the database query returns every user whose role is
not ADMIN (in collection order), and the loop above picks the winner. -/
def autoAssign (pool : List Candidate) (t : TaskSpec) : Option Candidate :=
  selectLoop t (pool.filter (fun c => c.role ≠ "ADMIN")) (-1) none

/-- Eligibility as the claim states it: not an ADMIN and a non-empty skill
intersection with the required skills. -/
def Eligible (c : Candidate) (t : TaskSpec) : Prop :=
  c.role ≠ "ADMIN" ∧ hasSkillMatch c t = true

end Assign

/- ==================================================================
   ReliabilityEstimator — services/performance_service.py
   ================================================================== -/
namespace Perf

/-- Performance-history record fields read by the windowed recomputation. -/
structure Obs where
  completedAt : ℝ
  wasOnTime : Bool
  quality : ℝ

/-- Exponential time decay `math.exp(-days_ago / 30)` with
`days_ago = (now - completedAt) / (1000*60*60*24)`; timestamps in
milliseconds. -/
noncomputable def decayWeight (now t : ℝ) : ℝ :=
  Real.exp (-(((now - t) / (1000 * 60 * 60 * 24)) / 30))

/-- `calculate_user_performance`, taken over the already-materialized
90-day observation window `history` and the assigned-task count
`totalAssigned` (the two database reads), at wall-clock time `now`:
empty history or zero assigned tasks give the 0.5 default, otherwise the
decay-weighted on-time rate and quality average blend with the completion
rate and the result is clamped to [0, 1]. -/
noncomputable def calculate_user_performance (now : ℝ) (history : List Obs)
    (totalAssigned : ℕ) : ℝ :=
  if history.isEmpty then 0.5
  else if totalAssigned = 0 then 0.5
  else
    let totalWeight := (history.map (fun r => decayWeight now r.completedAt)).sum
    let weightedOnTime :=
      (history.map (fun r => (if r.wasOnTime then (1 : ℝ) else 0) * decayWeight now r.completedAt)).sum
    let weightedQuality :=
      (history.map (fun r => r.quality * decayWeight now r.completedAt)).sum
    let onTimeRate := if 0 < totalWeight then weightedOnTime / totalWeight else 0.5
    let avgQuality := if 0 < totalWeight then weightedQuality / totalWeight else 0.5
    let completionRate := (history.length : ℝ) / (totalAssigned : ℝ)
    let performanceScore := onTimeRate * 0.4 + avgQuality * 0.4 + completionRate * 0.2
    min (max performanceScore 0) 1

/-- Task document fields read by `record_task_completion`. -/
structure TaskRec where
  assigneeId : String
  deadline : ℝ
  createdAt : Option ℝ
  priority : String
  requiredSkills : List String

/-- Performance-history record as created by `record_task_completion`. -/
structure PerfRecord where
  userId : String
  taskId : String
  completedAt : ℝ
  wasOnTime : Bool
  quality : ℝ
  hoursSpent : ℝ

/-- The record built by `record_task_completion`: `wasOnTime` compares the
completion instant with the deadline; a missing `hours_spent` falls back to
elapsed hours since creation floored at 0.1, or 1.0 without a creation
time (the string-date parsing branch of the source is elided); a missing
`quality` defaults to the perfect score 1.0. -/
noncomputable def mkPerformanceRecord (task : TaskRec) (taskId : String) (now : ℝ)
    (quality : Option ℝ) (hoursSpent : Option ℝ) : PerfRecord :=
  { userId := task.assigneeId
    taskId := taskId
    completedAt := now
    wasOnTime := decide (now ≤ task.deadline)
    quality :=
      match quality with
      | some q => q
      | none => 1.0
    hoursSpent :=
      match hoursSpent with
      | some h => h
      | none =>
        match task.createdAt with
        | some c => max 0.1 ((now - c) / (1000 * 60 * 60))
        | none => 1.0 }

def toObs (r : PerfRecord) : Obs :=
  { completedAt := r.completedAt, wasOnTime := r.wasOnTime, quality := r.quality }

/-- `record_task_completion` followed by `update_user_performance`: the new
record is inserted into the performance history, and the assignee score is
recomputed by `calculate_user_performance` over the history that now
includes it.  Returns the record and the recomputed score. -/
noncomputable def record_task_completion (task : TaskRec) (taskId : String) (now : ℝ)
    (quality : Option ℝ) (hoursSpent : Option ℝ) (history : List Obs)
    (totalAssigned : ℕ) : PerfRecord × ℝ :=
  let rcd := mkPerformanceRecord task taskId now quality hoursSpent
  let newHistory := history ++ [toObs rcd]
  (rcd, calculate_user_performance now newHistory totalAssigned)

end Perf

/- ==================================================================
   CompletionInferenceOrchestrator — services/agentic_completion.py
   ================================================================== -/
namespace Completion

/-- A parsed advisory reply: the dict that `json.loads` produced inside
the `try` block.  Nothing forces a JSON object to carry the five keys the
orchestrator later reads, so each field is `some` when its key is present
with a value the subscript access can use, and `none` when the key is
missing. -/
structure RawAdvisory where
  inferred_quality_score : Option ℝ
  quality_label : Option String
  confidence_score : Option ℝ
  implied_effort_hours : Option ℝ
  narrative : Option String

/-- The `except` branch of `autonomous_completion_inference`: fixed
conservative quality 0.8, confidence 0.1, and effort-hours equal to half
the wall-clock hours; every key is present in this dict. -/
noncomputable def fallbackResult (wallClockMinutes : ℝ) : RawAdvisory :=
  { inferred_quality_score := some 0.8
    quality_label := some "Uncertain"
    confidence_score := some 0.1
    implied_effort_hours := some (wallClockMinutes / 60 * 0.5)
    narrative := some "AI reasoning failed, using fallback estimates." }

/-- `autonomous_completion_inference` as a function of the advisory call
outcome.  `none` models an exception raised inside the `try` — timeout,
API error, or a reply that `json.loads` rejects — and yields the
deterministic fallback.  `some r` models a reply that parsed as JSON: it
is returned as-is, with no validation of which keys it carries. -/
noncomputable def autonomous_completion_inference (advisory : Option RawAdvisory)
    (wallClockMinutes : ℝ) : RawAdvisory :=
  match advisory with
  | some r => r
  | none => fallbackResult wallClockMinutes

/-- The fast-feedback reliability update of `process_task_completion`:
`alpha = 0.1 * confidence`, `new = old * (1 - alpha) + quality * alpha`,
with no clamping. -/
noncomputable def new_reliability (old quality confidence : ℝ) : ℝ :=
  let alpha := 0.1 * confidence
  old * (1 - alpha) + quality * alpha

/-- The commit tail of `process_task_completion` after the inference
call: the subscript reads of `inferred_quality_score`,
`implied_effort_hours`, `quality_label`, `confidence_score` and
`narrative`, followed by the fast-feedback reliability update.  When every
key is present the updated reliability is produced; a missing key raises
`KeyError` out of `process_task_completion` — modelled as `none`. -/
noncomputable def process_commit (old : ℝ) (r : RawAdvisory) : Option ℝ :=
  match r.inferred_quality_score, r.implied_effort_hours, r.quality_label,
      r.confidence_score, r.narrative with
  | some q, some _eff, some _lbl, some conf, some _narr =>
    some (new_reliability old q conf)
  | _, _, _, _, _ => none

end Completion

/- ==================================================================
   Concrete inputs used by the theorems below
   ================================================================== -/

/-- The linear chain A → B → C with durations 10/20/30 named by the
specification. -/
def chainTasks : List Gantt.Task :=
  [⟨"A", 10, []⟩, ⟨"B", 20, ["A"]⟩, ⟨"C", 30, ["B"]⟩]

/-- A task set with a two-node path X → Y of total duration 2000 beside a
three-node path P → Q → R of total duration 3. -/
def cpTasks : List Gantt.Task :=
  [⟨"X", 1000, []⟩, ⟨"Y", 1000, ["X"]⟩, ⟨"P", 1, []⟩, ⟨"Q", 1, ["P"]⟩, ⟨"R", 1, ["Q"]⟩]

/-- Two tasks depending on each other: a dependency cycle. -/
def cycTasks : List Gantt.Task :=
  [⟨"A", 5, ["B"]⟩, ⟨"B", 3, ["A"]⟩]

/-- An encoder whose raw output vector for every text is `[3, 4]`, of L2
norm 5 — a stand-in for the sentence-transformer model, whose raw encodings
are likewise not unit vectors. -/
noncomputable def enc0 : String → List ℝ := fun _ => [3, 4]

/-- A concrete memory record. -/
def m1 : Mem.Memory :=
  { id := "M1", text := "deploy the API", metadata := ⟨none, none, none, none⟩ }

/-- The python-skilled candidate of the end-to-end example: reliability
0.9, no active tasks. -/
def cPy : Assign.Candidate :=
  { id := "U1", role := "ASSIGNEE", skills := ["python"], reliabilityScore := 9 / 10,
    deptId := none, activeTaskCount := 0 }

/-- The java-skilled candidate of the end-to-end example: reliability 0.99
but no required skill. -/
def cJava : Assign.Candidate :=
  { id := "U2", role := "ASSIGNEE", skills := ["java"], reliabilityScore := 99 / 100,
    deptId := none, activeTaskCount := 0 }

def witPool : List Assign.Candidate := [cPy, cJava]

def witTask : Assign.TaskSpec := { requiredSkills := ["python"], deptId := none }

/-- The empty JSON object as an advisory reply: it parses, yet carries
none of the keys the orchestrator reads. -/
def malformedReply : Completion.RawAdvisory :=
  { inferred_quality_score := none, quality_label := none, confidence_score := none,
    implied_effort_hours := none, narrative := none }

/- ==================================================================
   Theorems
   ================================================================== -/

/-- C1: the claim says `calculate_critical_path` returns the path with the
maximum summed `estimatedDuration`.  The code calls `nx.dag_longest_path`
with no edge weights, so it maximizes edge count and never reads the
`duration` node attribute: on `cpTasks` it returns the three-node path
P, Q, R of total duration 3 although the dependency path X, Y has total
duration 2000. -/
theorem C1_critical_path_ignores_durations :
    Gantt.calculate_critical_path cpTasks = ["P", "Q", "R"] ∧
    Gantt.isChain (Gantt.buildGraph cpTasks) ["X", "Y"] = true ∧
    Gantt.pathDuration (Gantt.buildGraph cpTasks) ["X", "Y"] = 2000 ∧
    Gantt.pathDuration (Gantt.buildGraph cpTasks) ["P", "Q", "R"] = 3 := by
  refine ⟨by decide, by decide, by decide, by decide⟩

/-- C7: on a cyclic dependency graph `calculate_critical_path` returns the
empty sequence (the `NetworkXUnfeasible` handler), and on an empty task set
it returns the empty sequence; being a total Lean function it terminates on
every input. -/
theorem C7_cycle_and_empty_degrade (tasks : List Gantt.Task) :
    (Gantt.hasCycle (Gantt.buildGraph tasks) = true →
      Gantt.calculate_critical_path tasks = []) ∧
    (tasks = [] → Gantt.calculate_critical_path tasks = []) := by
  constructor
  · intro h
    unfold Gantt.calculate_critical_path
    by_cases he : tasks = [] <;> simp [he, h]
  · intro h
    subst h
    rfl

/-- C7 witness: the two mutually dependent tasks form a cycle and the
critical path degrades to the empty sequence. -/
theorem C7_cycle_and_empty_degrade_witness :
    Gantt.hasCycle (Gantt.buildGraph cycTasks) = true ∧
    Gantt.calculate_critical_path cycTasks = [] :=
  ⟨by decide, (C7_cycle_and_empty_degrade cycTasks).1 (by decide)⟩

/-- C3: the claim says a repeated id makes `add_memory` a silent no-op.
The duplicate branch of the source reads `if memory.id in memory_store:
pass` and control falls through, so the second insertion of `m1` appends a
second FAISS row and a second `id_map` entry instead of leaving the state
unchanged — contradicting the comment "Simple skip if exists" beside it. -/
theorem C3_duplicate_insert_not_noop :
    (Mem.add_memory enc0 (Mem.add_memory enc0 Mem.emptyState m1) m1).id_map =
      ["M1", "M1"] ∧
    (Mem.add_memory enc0 Mem.emptyState m1).id_map = ["M1"] ∧
    (Mem.add_memory enc0 (Mem.add_memory enc0 Mem.emptyState m1) m1).index.length = 2 ∧
    (Mem.add_memory enc0 Mem.emptyState m1).index.length = 1 ∧
    (Mem.add_memory enc0 (Mem.add_memory enc0 Mem.emptyState m1) m1).id_map ≠
      (Mem.add_memory enc0 Mem.emptyState m1).id_map := by
  refine ⟨rfl, rfl, rfl, rfl, by decide⟩

/-- C2: the claim says every stored embedding and every query embedding is
unit-norm.  `get_embedding` normalizes a discarded temporary copy
(`np.array([vec])`) and returns the raw encoder output, so `add_memory`
stores the unnormalized vector: with raw encoding `[3, 4]` the stored
vector has squared norm 25, while the normalization the specification
describes would store a unit vector. -/
theorem C2_embedding_not_normalized :
    Mem.get_embedding enc0 "deploy the API" = [3, 4] ∧
    Mem.sumSq (Mem.get_embedding enc0 "deploy the API") = 25 ∧
    Mem.sumSq (Mem.get_embedding enc0 "deploy the API") ≠ 1 ∧
    (Mem.add_memory enc0 Mem.emptyState m1).index = [[3, 4]] ∧
    Mem.sumSq (Mem.get_embedding_spec enc0 "deploy the API") = 1 := by
  have h25 : Mem.sumSq [(3 : ℝ), 4] = 25 := by
    simp [Mem.sumSq]
    norm_num
  have h5 : Real.sqrt (25 : ℝ) = 5 := by
    rw [show (25 : ℝ) = 5 ^ 2 by norm_num]
    exact Real.sqrt_sq (by norm_num)
  refine ⟨rfl, h25, ?_, rfl, ?_⟩
  · show Mem.sumSq [(3 : ℝ), 4] ≠ 1
    rw [h25]
    norm_num
  · show Mem.sumSq (Mem.normalize_L2 [(3 : ℝ), 4]) = 1
    simp only [Mem.normalize_L2, h25, h5]
    simp [Mem.sumSq]
    norm_num

/-- C4 counterexample: the fast-feedback update applies no clamp, so an
advisory result with quality 2 and confidence 1 moves a valid score 1 to
11/10, outside [0, 1] — the claim fails for that advisory result. -/
theorem C4_fast_update_escapes_unit_interval :
    Completion.new_reliability 1 2 1 = 11 / 10 ∧
    ¬ Completion.new_reliability 1 2 1 ≤ 1 := by
  constructor
  · unfold Completion.new_reliability
    norm_num
  · unfold Completion.new_reliability
    norm_num

/-- C4 amended: the windowed recomputation always lands in [0, 1] (its
branches return 0.5 or a clamped blend), and the fast-feedback update
lands in [0, 1] whenever the prior score, the advisory quality, and the
advisory confidence all lie in [0, 1]; for advisory values outside [0, 1]
the unclamped fast path can leave the interval. -/
theorem C4_reliability_bounds_amended (now : ℝ) (history : List Perf.Obs) (n : ℕ)
    (old q conf : ℝ) (hold : old ∈ Set.Icc (0 : ℝ) 1) (hq : q ∈ Set.Icc (0 : ℝ) 1)
    (hconf : conf ∈ Set.Icc (0 : ℝ) 1) :
    Perf.calculate_user_performance now history n ∈ Set.Icc (0 : ℝ) 1 ∧
    Completion.new_reliability old q conf ∈ Set.Icc (0 : ℝ) 1 := by
  obtain ⟨ho1, ho2⟩ := hold
  obtain ⟨hq1, hq2⟩ := hq
  obtain ⟨hc1, hc2⟩ := hconf
  constructor
  · rw [Set.mem_Icc]
    unfold Perf.calculate_user_performance
    split
    · norm_num
    · split
      · norm_num
      · constructor
        · exact le_min (le_max_right _ _) (by norm_num)
        · exact min_le_right _ _
  · rw [Set.mem_Icc]
    unfold Completion.new_reliability
    constructor
    · nlinarith [mul_nonneg ho1 (by linarith : (0 : ℝ) ≤ 1 - 0.1 * conf),
        mul_nonneg hq1 (by linarith : (0 : ℝ) ≤ 0.1 * conf)]
    · nlinarith [mul_le_mul_of_nonneg_right ho2 (by linarith : (0 : ℝ) ≤ 1 - 0.1 * conf),
        mul_le_mul_of_nonneg_right hq2 (by linarith : (0 : ℝ) ≤ 0.1 * conf)]

/-- C4 witness: both update paths evaluated at concrete in-range inputs. -/
theorem C4_reliability_bounds_amended_witness :
    Perf.calculate_user_performance 0 [] 0 ∈ Set.Icc (0 : ℝ) 1 ∧
    Completion.new_reliability (1 / 2) 1 1 ∈ Set.Icc (0 : ℝ) 1 :=
  C4_reliability_bounds_amended 0 [] 0 (1 / 2) 1 1 (by norm_num) (by norm_num)
    (by norm_num)

/-- C9 counterexample: an advisory reply that parses as JSON but carries
none of the required keys (the empty JSON object) is returned as success
by `autonomous_completion_inference` — it is not replaced by the
deterministic fallback — and the commit step of `process_task_completion`
then propagates a `KeyError` instead of producing an updated score.  This
refutes the claim for the malformed-response case it covers. -/
theorem C9_malformed_json_reply_propagates :
    Completion.autonomous_completion_inference (some malformedReply) 60 =
      malformedReply ∧
    Completion.autonomous_completion_inference (some malformedReply) 60 ≠
      Completion.fallbackResult 60 ∧
    Completion.process_commit (1 / 2)
      (Completion.autonomous_completion_inference (some malformedReply) 60) = none := by
  refine ⟨rfl, ?_, rfl⟩
  intro h
  have hlbl := congrArg Completion.RawAdvisory.quality_label h
  simp [Completion.autonomous_completion_inference, malformedReply,
    Completion.fallbackResult] at hlbl

/-- C9 amended: whenever the advisory call raises — timeout, API error,
or a reply that fails JSON parsing — `autonomous_completion_inference`
returns the deterministic fallback instead of propagating the failure,
with effort-hours half the wall-clock hours and confidence 0.1; the commit
step succeeds on that fallback, and the fast-feedback update it performs
moves any stored score in [0, 1] by strictly less than 0.05.  (A reply
that parses as JSON while missing required keys is instead returned as
success and crashes the commit step — see the counterexample.) -/
theorem C9_advisory_exception_fallback (wc old : ℝ) (h0 : 0 ≤ old) (h1 : old ≤ 1) :
    Completion.autonomous_completion_inference none wc =
      Completion.fallbackResult wc ∧
    (Completion.autonomous_completion_inference none wc).confidence_score =
      some 0.1 ∧
    (Completion.autonomous_completion_inference none wc).implied_effort_hours =
      some (wc / 60 * 0.5) ∧
    Completion.process_commit old (Completion.autonomous_completion_inference none wc) =
      some (Completion.new_reliability old 0.8 0.1) ∧
    |Completion.new_reliability old 0.8 0.1 - old| < 0.05 := by
  refine ⟨rfl, rfl, rfl, rfl, ?_⟩
  unfold Completion.new_reliability
  rw [abs_lt]
  constructor <;> nlinarith

/-- C9 witness: the exception-driven fallback path evaluated at a
one-hour task and a mid-scale prior score. -/
theorem C9_advisory_exception_fallback_witness :
    Completion.autonomous_completion_inference none 60 =
      Completion.fallbackResult 60 ∧
    (Completion.autonomous_completion_inference none 60).confidence_score =
      some 0.1 ∧
    (Completion.autonomous_completion_inference none 60).implied_effort_hours =
      some (60 / 60 * 0.5) ∧
    Completion.process_commit (1 / 2)
      (Completion.autonomous_completion_inference none 60) =
      some (Completion.new_reliability (1 / 2) 0.8 0.1) ∧
    |Completion.new_reliability (1 / 2) 0.8 0.1 - 1 / 2| < 0.05 :=
  C9_advisory_exception_fallback 60 (1 / 2) (by norm_num) (by norm_num)

/-- Moving the evaluation instant rescales every decay weight by one
common positive factor. -/
theorem decayWeight_shift (now now2 t : ℝ) :
    Perf.decayWeight now2 t =
      Perf.decayWeight now t * Real.exp ((now - now2) / (1000 * 60 * 60 * 24 * 30)) := by
  unfold Perf.decayWeight
  rw [← Real.exp_add]
  congr 1
  ring

/-- The common decay factor distributes out of every weighted sum. -/
theorem sum_map_decay_shift (h : List Perf.Obs) (f : Perf.Obs → ℝ) (now now2 : ℝ) :
    (h.map (fun r => f r * Perf.decayWeight now2 r.completedAt)).sum =
      (h.map (fun r => f r * Perf.decayWeight now r.completedAt)).sum *
        Real.exp ((now - now2) / (1000 * 60 * 60 * 24 * 30)) := by
  induction h with
  | nil => simp
  | cons a rest ih =>
    simp only [List.map_cons, List.sum_cons]
    rw [ih, decayWeight_shift now now2 a.completedAt]
    ring

/-- The total decay weight of a nonempty window is positive. -/
theorem sum_decay_pos (now : ℝ) (h : List Perf.Obs) (hne : h ≠ []) :
    0 < (h.map (fun r => Perf.decayWeight now r.completedAt)).sum := by
  apply List.sum_pos
  · intro x hx
    obtain ⟨r, _, hr⟩ := List.mem_map.mp hx
    rw [← hr]
    exact Real.exp_pos _
  · simpa using hne

/-- C8: over an unchanged observation window and assigned-task count, the
windowed recomputation returns the same score at every evaluation instant:
in exact arithmetic the decay weights rescale by one common factor that
cancels in both weighted averages, and the completion rate does not depend
on the clock at all. -/
theorem C8_recompute_idempotent (now now2 : ℝ) (history : List Perf.Obs)
    (totalAssigned : ℕ) :
    Perf.calculate_user_performance now history totalAssigned =
      Perf.calculate_user_performance now2 history totalAssigned := by
  unfold Perf.calculate_user_performance
  by_cases hne : history.isEmpty
  · simp [hne]
  · by_cases hn : totalAssigned = 0
    · simp [hn]
    · have hlist : history ≠ [] := by
        simpa [List.isEmpty_iff] using hne
      simp only [hne, hn, if_false, Bool.false_eq_true]
      set k := Real.exp ((now - now2) / (1000 * 60 * 60 * 24 * 30)) with hk
      have hkpos : 0 < k := Real.exp_pos _
      have hks : ∀ f : Perf.Obs → ℝ,
          (history.map (fun r => f r * Perf.decayWeight now2 r.completedAt)).sum =
            (history.map (fun r => f r * Perf.decayWeight now r.completedAt)).sum * k :=
        fun f => sum_map_decay_shift history f now now2
      have htw : (history.map (fun r => Perf.decayWeight now2 r.completedAt)).sum =
          (history.map (fun r => Perf.decayWeight now r.completedAt)).sum * k := by
        have := hks (fun _ => 1)
        simpa using this
      have hpos := sum_decay_pos now history hlist
      have hpos2 : 0 < (history.map (fun r => Perf.decayWeight now r.completedAt)).sum * k :=
        mul_pos hpos hkpos
      rw [htw, hks (fun r => if r.wasOnTime then (1 : ℝ) else 0), hks (fun r => r.quality)]
      simp only [hpos, hpos2, if_true]
      rw [mul_div_mul_right _ _ (ne_of_gt hkpos), mul_div_mul_right _ _ (ne_of_gt hkpos)]

/-- C10: when `record_task_completion` receives no quality rating, the
created performance record carries quality 1.0 — the perfect score — and
the recomputed reliability is `calculate_user_performance` over the
history extended with exactly that record. -/
theorem C10_default_quality_perfect (task : Perf.TaskRec) (taskId : String) (now : ℝ)
    (hours : Option ℝ) (history : List Perf.Obs) (totalAssigned : ℕ) :
    (Perf.record_task_completion task taskId now none hours history totalAssigned).1.quality
      = 1 ∧
    (Perf.record_task_completion task taskId now none hours history totalAssigned).2 =
      Perf.calculate_user_performance now
        (history ++
          [Perf.toObs
            (Perf.record_task_completion task taskId now none hours history
              totalAssigned).1])
        totalAssigned := by
  refine ⟨?_, rfl⟩
  norm_num [Perf.record_task_completion, Perf.mkPerformanceRecord]

/-- Once a best candidate exists, the selection loop always returns one. -/
theorem selectLoop_isSome (t : Assign.TaskSpec) :
    ∀ (cs : List Assign.Candidate) (bs : ℚ) (b : Assign.Candidate),
      ∃ r, Assign.selectLoop t cs bs (some b) = some r := by
  intro cs
  induction cs with
  | nil => exact fun bs b => ⟨b, rfl⟩
  | cons c rest ih =>
    intro bs b
    unfold Assign.selectLoop
    by_cases hm : Assign.hasSkillMatch c t = true
    · by_cases hs : Assign.score c t > bs
      · simpa [hm, hs] using ih (Assign.score c t) c
      · simpa [hm, hs] using ih bs b
    · simpa [hm] using ih bs b

/-- Full characterization of the selection loop: either nothing in the
remaining pool beats the running best, or the result is the first
remaining candidate attaining the maximum — everything before it scores
strictly lower, everything after at most as high. -/
theorem selectLoop_spec (t : Assign.TaskSpec) :
    ∀ (cs : List Assign.Candidate) (bs : ℚ) (best : Option Assign.Candidate)
      (r : Assign.Candidate),
      Assign.selectLoop t cs bs best = some r →
      (best = some r ∧
        ∀ c ∈ cs, Assign.hasSkillMatch c t = true → Assign.score c t ≤ bs) ∨
      (∃ l1 l2, cs = l1 ++ r :: l2 ∧ Assign.hasSkillMatch r t = true ∧
        bs < Assign.score r t ∧
        (∀ x ∈ l1, Assign.hasSkillMatch x t = true →
          Assign.score x t < Assign.score r t) ∧
        (∀ x ∈ l2, Assign.hasSkillMatch x t = true →
          Assign.score x t ≤ Assign.score r t)) := by
  intro cs
  induction cs with
  | nil =>
    intro bs best r h
    exact Or.inl ⟨h, by simp⟩
  | cons c rest ih =>
    intro bs best r h
    unfold Assign.selectLoop at h
    by_cases hm : Assign.hasSkillMatch c t = true
    · by_cases hs : Assign.score c t > bs
      · rw [if_pos hm, if_pos hs] at h
        rcases ih (Assign.score c t) (some c) r h with ⟨hcr, hall⟩ | ⟨l1, l2, heq, hmr, hlt, hpre, hsuf⟩
        · have hcr2 : c = r := Option.some.inj hcr
          subst hcr2
          refine Or.inr ⟨[], rest, rfl, hm, hs, by simp, ?_⟩
          intro x hx hmx
          exact hall x hx hmx
        · refine Or.inr ⟨c :: l1, l2, by simp [heq], hmr, lt_trans hs hlt, ?_, hsuf⟩
          intro x hx hmx
          rcases List.mem_cons.mp hx with hxc | hxl
          · subst hxc
            exact hlt
          · exact hpre x hxl hmx
      · rw [if_pos hm, if_neg hs] at h
        rcases ih bs best r h with ⟨hb, hall⟩ | ⟨l1, l2, heq, hmr, hlt, hpre, hsuf⟩
        · refine Or.inl ⟨hb, ?_⟩
          intro x hx hmx
          rcases List.mem_cons.mp hx with hxc | hxl
          · subst hxc
            exact le_of_not_lt hs
          · exact hall x hxl hmx
        · refine Or.inr ⟨c :: l1, l2, by simp [heq], hmr, hlt, ?_, hsuf⟩
          intro x hx hmx
          rcases List.mem_cons.mp hx with hxc | hxl
          · subst hxc
            exact lt_of_le_of_lt (le_of_not_lt hs) hlt
          · exact hpre x hxl hmx
    · rw [if_neg hm] at h
      rcases ih bs best r h with ⟨hb, hall⟩ | ⟨l1, l2, heq, hmr, hlt, hpre, hsuf⟩
      · refine Or.inl ⟨hb, ?_⟩
        intro x hx hmx
        rcases List.mem_cons.mp hx with hxc | hxl
        · subst hxc
          exact absurd hmx hm
        · exact hall x hxl hmx
      · refine Or.inr ⟨c :: l1, l2, by simp [heq], hmr, hlt, ?_, hsuf⟩
        intro x hx hmx
        rcases List.mem_cons.mp hx with hxc | hxl
        · subst hxc
          exact absurd hmx hm
        · exact hpre x hxl hmx

/-- If some remaining candidate has a skill match and beats the running
best score, the loop returns a winner. -/
theorem selectLoop_total (t : Assign.TaskSpec) :
    ∀ (cs : List Assign.Candidate) (bs : ℚ) (best : Option Assign.Candidate),
      (∃ c ∈ cs, Assign.hasSkillMatch c t = true ∧ bs < Assign.score c t) →
      ∃ r, Assign.selectLoop t cs bs best = some r := by
  intro cs
  induction cs with
  | nil =>
    intro bs best h
    obtain ⟨c, hc, -⟩ := h
    exact absurd hc (List.not_mem_nil c)
  | cons c rest ih =>
    intro bs best ⟨w, hw, hwm, hws⟩
    unfold Assign.selectLoop
    by_cases hm : Assign.hasSkillMatch c t = true
    · by_cases hs : Assign.score c t > bs
      · simpa [hm, hs] using selectLoop_isSome t rest (Assign.score c t) c
      · rw [if_pos hm, if_neg hs]
        rcases List.mem_cons.mp hw with hwc | hwr
        · subst hwc
          exact absurd hws hs
        · exact ih bs best ⟨w, hwr, hwm, hws⟩
    · rw [if_neg hm]
      rcases List.mem_cons.mp hw with hwc | hwr
      · subst hwc
        exact absurd hwm hm
      · exact ih bs best ⟨w, hwr, hwm, hws⟩

/-- Splitting a filtered list lifts to a split of the original list whose
prefix keeps only filtered-out or earlier elements. -/
theorem filter_split {α : Type} (p : α → Bool) :
    ∀ (pool l1 l2 : List α) (r : α), pool.filter p = l1 ++ r :: l2 →
      ∃ m1 m2, pool = m1 ++ r :: m2 ∧ ∀ x ∈ m1, p x = true → x ∈ l1 := by
  intro pool
  induction pool with
  | nil =>
    intro l1 l2 r h
    rw [List.filter_nil] at h
    exact absurd h.symm (List.append_ne_nil_of_right_ne_nil l1 (List.cons_ne_nil r l2))
  | cons a rest ih =>
    intro l1 l2 r h
    by_cases hp : p a = true
    · rw [List.filter_cons_of_pos hp] at h
      cases l1 with
      | nil =>
        simp only [List.nil_append] at h
        obtain ⟨har, hrest⟩ := List.cons.inj h
        subst har
        exact ⟨[], rest, rfl, by simp⟩
      | cons b l1t =>
        obtain ⟨hab, hrest⟩ := List.cons.inj h
        subst hab
        obtain ⟨m1, m2, hsplit, hmem⟩ := ih l1t l2 r hrest
        refine ⟨a :: m1, m2, by simp [hsplit], ?_⟩
        intro x hx hpx
        rcases List.mem_cons.mp hx with hxa | hxm
        · subst hxa
          exact List.mem_cons_self x l1t
        · exact List.mem_cons_of_mem _ (hmem x hxm hpx)
    · rw [List.filter_cons_of_neg hp] at h
      obtain ⟨m1, m2, hsplit, hmem⟩ := ih l1 l2 r h
      refine ⟨a :: m1, m2, by simp [hsplit], ?_⟩
      intro x hx hpx
      rcases List.mem_cons.mp hx with hxa | hxm
      · subst hxa
        exact absurd hpx hp
      · exact hmem x hxm hpx

/-- A candidate score is nonnegative when the reliability input is. -/
theorem score_nonneg (c : Assign.Candidate) (t : Assign.TaskSpec)
    (hrel : 0 ≤ c.reliabilityScore) : 0 ≤ Assign.score c t := by
  have h1 : 0 ≤ Assign.skillScore c t :=
    div_nonneg (Nat.cast_nonneg _) (Nat.cast_nonneg _)
  have h2 : (0 : ℚ) ≤ Assign.workloadScore c := le_max_left 0 _
  have h3 : (0 : ℚ) ≤ Assign.roleBonus c := by
    unfold Assign.roleBonus
    split <;> norm_num
  have h4 : (0 : ℚ) ≤ Assign.contextBonus c t := by
    unfold Assign.contextBonus
    split <;> norm_num
  unfold Assign.score
  nlinarith

/-- Mapping a list of keys to key-value pairs and back is the identity. -/
theorem map_fst_pairs (d : Int) (l : List String) :
    (l.map (fun x => (x, d))).map Prod.fst = l := by
  induction l with
  | nil => rfl
  | cons a rest ih => simp [ih]

/-- Membership in the successor list comes from an edge of the graph. -/
theorem mem_succs_edge (g : Gantt.Graph) (v x : String) (h : x ∈ Gantt.succs g v) :
    (v, x) ∈ g.edges := by
  unfold Gantt.succs at h
  obtain ⟨e, he, hx⟩ := List.mem_map.mp h
  have := List.mem_filter.mp he
  obtain ⟨he1, he2⟩ := this
  have he2p : e.1 = v := by simpa using he2
  have : e = (v, x) := by
    cases e
    simp only at he2p hx
    rw [he2p, hx]
  rw [← this]
  exact he1

/-- A set containing the origin and closed under successor steps contains
every reachable node. -/
theorem reach_subset_closed (g : Gantt.Graph) (origin : String) (S : List String)
    (hO : origin ∈ S) (hcl : ∀ v ∈ S, ∀ w ∈ Gantt.succs g v, w ∈ S) :
    ∀ v, Relation.ReflTransGen (Gantt.Step g) origin v → v ∈ S := by
  intro v h
  induction h with
  | refl => exact hO
  | tail _ hbc ih => exact hcl _ ih _ hbc

/-- Excluding one fresh element of a duplicate-free list from a filter
drops its length by exactly one. -/
theorem filter_excl_one (vis : List String) (a : String) :
    ∀ V : List String, V.Nodup → a ∈ V → a ∉ vis →
      (V.filter (fun x => decide (x ∉ vis ++ [a]))).length + 1 =
        (V.filter (fun x => decide (x ∉ vis))).length := by
  intro V
  induction V with
  | nil =>
    intro _ ha _
    exact absurd ha (List.not_mem_nil a)
  | cons b rest ih =>
    intro hnd haV havis
    have hbr : b ∉ rest := (List.nodup_cons.mp hnd).1
    have hrest : rest.Nodup := (List.nodup_cons.mp hnd).2
    by_cases hab : a = b
    · subst hab
      have h1 : ¬ (a ∉ vis ++ [a]) := by simp
      rw [List.filter_cons_of_neg (by simpa using h1),
        List.filter_cons_of_pos (by simpa using havis)]
      have hcongr : rest.filter (fun x => decide (x ∉ vis ++ [a])) =
          rest.filter (fun x => decide (x ∉ vis)) := by
        apply List.filter_congr
        intro x hx
        have hxa : x ≠ a := fun hxa => hbr (hxa ▸ hx)
        simp [hxa]
      rw [hcongr]
      simp
    · have haR : a ∈ rest := by
        rcases List.mem_cons.mp haV with h | h
        · exact absurd h hab
        · exact h
      have hcond : (b ∉ vis ++ [a]) ↔ (b ∉ vis) := by
        simp only [List.mem_append, List.mem_singleton]
        constructor
        · intro h hb
          exact h (Or.inl hb)
        · intro h hb
          rcases hb with hb | hb
          · exact h hb
          · exact hab (hb.symm)
      by_cases hbv : b ∉ vis
      · rw [List.filter_cons_of_pos (by simpa using hcond.mpr hbv),
          List.filter_cons_of_pos (by simpa using hbv)]
        simp only [List.length_cons]
        have := ih hrest haR havis
        omega
      · rw [List.filter_cons_of_neg (by simpa using fun h => hbv (hcond.mp h)),
          List.filter_cons_of_neg (by simpa using hbv)]
        exact ih hrest haR havis

/-- Marking a duplicate-free batch of fresh nodes as visited shrinks the
unvisited count by exactly the batch size. -/
theorem filter_minus_newly :
    ∀ (newly vis V : List String), V.Nodup → newly.Nodup →
      (∀ x ∈ newly, x ∈ V ∧ x ∉ vis) →
      (V.filter (fun x => decide (x ∉ vis ++ newly))).length + newly.length =
        (V.filter (fun x => decide (x ∉ vis))).length := by
  intro newly
  induction newly with
  | nil =>
    intro vis V _ _ _
    have : V.filter (fun x => decide (x ∉ vis ++ [])) =
        V.filter (fun x => decide (x ∉ vis)) := by
      apply List.filter_congr
      intro x _
      simp
    rw [this]
    simp
  | cons a rest ih =>
    intro vis V hV hnd hmem
    have hnda : a ∉ rest := (List.nodup_cons.mp hnd).1
    have hndr : rest.Nodup := (List.nodup_cons.mp hnd).2
    have haV : a ∈ V := (hmem a (List.mem_cons_self a rest)).1
    have havis : a ∉ vis := (hmem a (List.mem_cons_self a rest)).2
    have hstep := ih (vis ++ [a]) V hV hndr (by
      intro x hx
      refine ⟨(hmem x (List.mem_cons_of_mem a hx)).1, ?_⟩
      intro hxv
      rcases List.mem_append.mp hxv with h | h
      · exact (hmem x (List.mem_cons_of_mem a hx)).2 h
      · have hxa : x = a := by simpa using h
        rw [hxa] at hx
        exact hnda hx)
    have hassoc : V.filter (fun x => decide (x ∉ vis ++ a :: rest)) =
        V.filter (fun x => decide (x ∉ (vis ++ [a]) ++ rest)) := by
      apply List.filter_congr
      intro x _
      simp only [List.append_assoc, List.singleton_append]
    have hone := filter_excl_one vis a V hV haV havis
    rw [hassoc]
    simp only [List.length_cons]
    omega

/-- Everything the inner enqueue loop of the BFS does: it appends some
batch of previously unvisited successors (each paired with the delay) to
the queue, marks exactly that batch visited, and afterwards every
successor in the processed list is visited. -/
theorem enqueueSuccs_spec (d : Int) :
    ∀ (s : List String) (q : List (String × Int)) (vis : List String),
      ∃ newly : List String,
        (Gantt.enqueueSuccs d s q vis).1 = q ++ newly.map (fun x => (x, d)) ∧
        (Gantt.enqueueSuccs d s q vis).2 = vis ++ newly ∧
        newly.Nodup ∧
        (∀ x ∈ newly, x ∈ s ∧ x ∉ vis) ∧
        (∀ x ∈ s, x ∈ vis ++ newly) := by
  intro s
  induction s with
  | nil =>
    intro q vis
    exact ⟨[], by simp [Gantt.enqueueSuccs], by simp [Gantt.enqueueSuccs], List.nodup_nil,
      by simp, by simp⟩
  | cons a rest ih =>
    intro q vis
    by_cases hav : a ∈ vis
    · obtain ⟨newly, h1, h2, h3, h4, h5⟩ := ih q vis
      refine ⟨newly, ?_, ?_, h3, ?_, ?_⟩
      · rw [← h1]
        simp [Gantt.enqueueSuccs, hav]
      · rw [← h2]
        simp [Gantt.enqueueSuccs, hav]
      · intro x hx
        exact ⟨List.mem_cons_of_mem a (h4 x hx).1, (h4 x hx).2⟩
      · intro x hx
        rcases List.mem_cons.mp hx with hxa | hxr
        · subst hxa
          exact List.mem_append_left _ hav
        · exact h5 x hxr
    · obtain ⟨newly, h1, h2, h3, h4, h5⟩ := ih (q ++ [(a, d)]) (vis ++ [a])
      refine ⟨a :: newly, ?_, ?_, ?_, ?_, ?_⟩
      · rw [show Gantt.enqueueSuccs d (a :: rest) q vis =
            Gantt.enqueueSuccs d rest (q ++ [(a, d)]) (vis ++ [a]) by
          simp [Gantt.enqueueSuccs, hav], h1]
        simp
      · rw [show Gantt.enqueueSuccs d (a :: rest) q vis =
            Gantt.enqueueSuccs d rest (q ++ [(a, d)]) (vis ++ [a]) by
          simp [Gantt.enqueueSuccs, hav], h2]
        simp
      · refine List.nodup_cons.mpr ⟨?_, h3⟩
        intro han
        have := (h4 a han).2
        simp at this
      · intro x hx
        rcases List.mem_cons.mp hx with hxa | hxn
        · rw [hxa]
          exact ⟨List.mem_cons_self a rest, hav⟩
        · refine ⟨List.mem_cons_of_mem a (h4 x hxn).1, ?_⟩
          intro hxv
          exact (h4 x hxn).2 (List.mem_append_left _ hxv)
      · intro x hx
        rcases List.mem_cons.mp hx with hxa | hxr
        · subst hxa
          simp
        · have := h5 x hxr
          rcases List.mem_append.mp this with h | h
          · rcases List.mem_append.mp h with h | h
            · exact List.mem_append_left _ h
            · simp only [List.mem_singleton] at h
              subst h
              simp
          · refine List.mem_append_right _ (List.mem_cons_of_mem a h)

/-- The final states of the BFS: with an empty queue, the accumulated
impact list holds exactly the reachable nodes other than the origin. -/
theorem bfs_final (g : Gantt.Graph) (origin : String) (vis : List String)
    (acc : List (String × Int))
    (hC : origin ∉ acc.map Prod.fst)
    (hE : ∀ v, v ∈ vis ↔ (v = origin ∨ v ∈ acc.map Prod.fst))
    (hF : ∀ v ∈ vis, Relation.ReflTransGen (Gantt.Step g) origin v)
    (hG : ∀ v ∈ vis, ∀ w ∈ Gantt.succs g v, w ∈ vis) :
    ∀ v, v ∈ acc.map Prod.fst ↔
      (v ≠ origin ∧ Relation.ReflTransGen (Gantt.Step g) origin v) := by
  intro v
  constructor
  · intro hv
    refine ⟨fun hvo => hC (hvo ▸ hv), ?_⟩
    exact hF v ((hE v).mpr (Or.inr hv))
  · intro ⟨hne, hreach⟩
    have hOvis : origin ∈ vis := (hE origin).mpr (Or.inl rfl)
    have hvvis : v ∈ vis := reach_subset_closed g origin vis hOvis hG v hreach
    rcases (hE v).mp hvvis with h | h
    · exact absurd h hne
    · exact h

/-- Invariant argument for the BFS loop of `simulate_delay`: given a sound
queue/visited/accumulator state with enough fuel, the loop returns the
impact list whose keys are exactly the reachable non-origin nodes and
whose values are all the original delay. -/
theorem bfsLoop_spec (g : Gantt.Graph) (origin : String) (d : Int) (V : List String)
    (hV : V.Nodup) (hVsub : ∀ a b, (a, b) ∈ g.edges → b ∈ V) :
    ∀ (fuel : Nat) (queue : List (String × Int)) (vis : List String)
      (acc : List (String × Int)),
      (∀ p ∈ queue, p.2 = d) →
      (∀ p ∈ acc, p.2 = d) →
      origin ∉ acc.map Prod.fst →
      (∀ v, v ∈ vis ↔ (v = origin ∨ v ∈ acc.map Prod.fst ∨ v ∈ queue.map Prod.fst)) →
      (∀ v ∈ vis, Relation.ReflTransGen (Gantt.Step g) origin v) →
      (∀ v ∈ vis, v ∉ queue.map Prod.fst → ∀ w ∈ Gantt.succs g v, w ∈ vis) →
      queue.length + (V.filter (fun x => decide (x ∉ vis))).length ≤ fuel →
      (∀ p ∈ Gantt.bfsLoop g origin fuel queue vis acc, p.2 = d) ∧
      (∀ v, v ∈ (Gantt.bfsLoop g origin fuel queue vis acc).map Prod.fst ↔
        (v ≠ origin ∧ Relation.ReflTransGen (Gantt.Step g) origin v)) := by
  intro fuel
  induction fuel with
  | zero =>
    intro queue vis acc hA hB hC hE hF hG hH
    have hq : queue = [] := by
      cases queue with
      | nil => rfl
      | cons p rest => simp at hH
    subst hq
    refine ⟨hB, bfs_final g origin vis acc hC ?_ hF ?_⟩
    · intro v
      have := hE v
      simpa using this
    · intro v hv
      exact hG v hv (by simp)
  | succ fuel ih =>
    intro queue vis acc hA hB hC hE hF hG hH
    cases queue with
    | nil =>
      refine ⟨hB, bfs_final g origin vis acc hC ?_ hF ?_⟩
      · intro v
        have := hE v
        simpa using this
      · intro v hv
        exact hG v hv (by simp)
    | cons p rest =>
      obtain ⟨cur, cd⟩ := p
      have hcd : d = cd := (hA (cur, cd) (List.mem_cons_self _ _)).symm
      subst hcd
      have hcurvis : cur ∈ vis := (hE cur).mpr (Or.inr (Or.inr (by simp)))
      obtain ⟨newly, hq1, hv2, hnodup, hmem, hall⟩ :=
        enqueueSuccs_spec d (Gantt.succs g cur) rest vis
      have hnewlyV : ∀ x ∈ newly, x ∈ V ∧ x ∉ vis := by
        intro x hx
        exact ⟨hVsub cur x (mem_succs_edge g cur x (hmem x hx).1), (hmem x hx).2⟩
      have hcount := filter_minus_newly newly vis V hV hnodup hnewlyV
      show (∀ p ∈ Gantt.bfsLoop g origin (fuel + 1) ((cur, d) :: rest) vis acc, p.2 = d) ∧ _
      have hunfold : Gantt.bfsLoop g origin (fuel + 1) ((cur, d) :: rest) vis acc =
          Gantt.bfsLoop g origin fuel (rest ++ newly.map (fun x => (x, d)))
            (vis ++ newly) (if cur = origin then acc else acc ++ [(cur, d)]) := by
        simp only [Gantt.bfsLoop]
        rw [hq1, hv2]
      rw [hunfold]
      apply ih
      · intro p hp
        rcases List.mem_append.mp hp with h | h
        · exact hA p (List.mem_cons_of_mem _ h)
        · obtain ⟨x, _, hx⟩ := List.mem_map.mp h
          rw [← hx]
      · intro p hp
        by_cases horig : cur = origin
        · rw [if_pos horig] at hp
          exact hB p hp
        · rw [if_neg horig] at hp
          rcases List.mem_append.mp hp with h | h
          · exact hB p h
          · simp only [List.mem_singleton] at h
            rw [h]
      · by_cases horig : cur = origin
        · rw [if_pos horig]
          exact hC
        · rw [if_neg horig]
          simp only [List.map_append, List.mem_append]
          intro hcon
          rcases hcon with h | h
          · exact hC h
          · simp only [List.map_cons, List.map_nil, List.mem_singleton] at h
            exact horig h.symm
      · intro v
        constructor
        · intro hv
          rcases List.mem_append.mp hv with hvv | hvn
          · rcases (hE v).mp hvv with h | h | h
            · exact Or.inl h
            · refine Or.inr (Or.inl ?_)
              by_cases horig : cur = origin
              · rw [if_pos horig]
                exact h
              · rw [if_neg horig]
                simp only [List.map_append, List.mem_append]
                exact Or.inl h
            · simp only [List.map_cons, List.mem_cons] at h
              rcases h with h | h
              · by_cases horig : cur = origin
                · exact Or.inl (h.trans horig)
                · refine Or.inr (Or.inl ?_)
                  rw [if_neg horig]
                  simp [h]
              · exact Or.inr (Or.inr (by
                  simp only [List.map_append, List.mem_append]
                  exact Or.inl h))
          · refine Or.inr (Or.inr ?_)
            simp only [List.map_append, List.mem_append, map_fst_pairs]
            exact Or.inr hvn
        · intro hv
          rcases hv with h | h | h
          · exact List.mem_append_left _ ((hE v).mpr (Or.inl h))
          · by_cases horig : cur = origin
            · rw [if_pos horig] at h
              exact List.mem_append_left _ ((hE v).mpr (Or.inr (Or.inl h)))
            · rw [if_neg horig] at h
              simp only [List.map_append, List.mem_append, List.map_cons, List.map_nil,
                List.mem_singleton] at h
              rcases h with h | h
              · exact List.mem_append_left _ ((hE v).mpr (Or.inr (Or.inl h)))
              · rw [h]
                exact List.mem_append_left _ hcurvis
          · simp only [List.map_append, List.mem_append, map_fst_pairs] at h
            rcases h with h | h
            · exact List.mem_append_left _ ((hE v).mpr (Or.inr (Or.inr (by simp [h]))))
            · exact List.mem_append_right _ h
      · intro v hv
        rcases List.mem_append.mp hv with h | h
        · exact hF v h
        · exact (hF cur hcurvis).tail (hmem v h).1
      · intro v hv hnq w hw
        rcases List.mem_append.mp hv with hvv | hvn
        · by_cases hvc : v = cur
          · subst hvc
            exact hall w hw
          · have hnrest : v ∉ ((cur, d) :: rest).map Prod.fst := by
              simp only [List.map_cons, List.mem_cons]
              intro hcon
              rcases hcon with h | h
              · exact hvc h
              · exact hnq (by
                  simp only [List.map_append, List.mem_append]
                  exact Or.inl h)
            exact List.mem_append_left _ (hG v hvv hnrest w hw)
        · exfalso
          apply hnq
          simp only [List.map_append, List.mem_append, map_fst_pairs]
          exact Or.inr hvn
      · simp only [List.length_append, List.length_map]
        have hold : ((cur, d) :: rest).length +
            (V.filter (fun x => decide (x ∉ vis))).length ≤ fuel + 1 := hH
        simp only [List.length_cons] at hold
        omega

/-- C6: for a task id present in the graph, `simulate_delay` returns a
mapping whose keys are exactly the descendants reachable from the origin
over successor edges (the origin itself excluded) and whose every value is
exactly the given delay, regardless of hop distance; for an id outside the
graph it returns the empty mapping. -/
theorem C6_simulate_delay_characterization (tasks : List Gantt.Task) (tid : String)
    (d : Int) :
    (tid ∈ (Gantt.buildGraph tasks).nodes →
      (∀ p ∈ Gantt.simulate_delay (Gantt.buildGraph tasks) tid d, p.2 = d) ∧
      (∀ v, v ∈ (Gantt.simulate_delay (Gantt.buildGraph tasks) tid d).map Prod.fst ↔
        (v ≠ tid ∧ Relation.ReflTransGen (Gantt.Step (Gantt.buildGraph tasks)) tid v))) ∧
    (tid ∉ (Gantt.buildGraph tasks).nodes →
      Gantt.simulate_delay (Gantt.buildGraph tasks) tid d = []) := by
  constructor
  · intro htid
    have hrun : Gantt.simulate_delay (Gantt.buildGraph tasks) tid d =
        Gantt.bfsLoop (Gantt.buildGraph tasks) tid
          ((Gantt.buildGraph tasks).edges.length + 1) [(tid, d)] [tid] [] := by
      unfold Gantt.simulate_delay
      rw [if_pos htid]
    rw [hrun]
    apply bfsLoop_spec (Gantt.buildGraph tasks) tid d
      (((Gantt.buildGraph tasks).edges.map Prod.snd).dedup) (List.nodup_dedup _)
    · intro a b hab
      exact List.mem_dedup.mpr (List.mem_map.mpr ⟨(a, b), hab, rfl⟩)
    · intro p hp
      simp only [List.mem_singleton] at hp
      rw [hp]
    · intro p hp
      exact absurd hp (List.not_mem_nil p)
    · simp
    · intro v
      simp
    · intro v hv
      simp only [List.mem_singleton] at hv
      rw [hv]
    · intro v hv hnq
      simp only [List.mem_singleton] at hv
      simp only [List.map_cons, List.map_nil, List.mem_singleton] at hnq
      exact absurd hv hnq
    · have h1 : ((((Gantt.buildGraph tasks).edges.map Prod.snd).dedup).filter
          (fun x => decide (x ∉ [tid]))).length ≤
          (((Gantt.buildGraph tasks).edges.map Prod.snd).dedup).length :=
        List.length_filter_le _ _
      have h2 : (((Gantt.buildGraph tasks).edges.map Prod.snd).dedup).length ≤
          ((Gantt.buildGraph tasks).edges.map Prod.snd).length :=
        (List.dedup_sublist _).length_le
      simp only [List.length_map] at h2
      simp only [List.length_cons, List.length_nil]
      omega
  · intro h
    unfold Gantt.simulate_delay
    rw [if_neg h]

/-- C6 witness: on the chain A → B → C with delay 15 the impact mapping
carries B and C, assigns 15 to every affected task, and excludes A. -/
theorem C6_simulate_delay_characterization_witness :
    (∀ p ∈ Gantt.simulate_delay (Gantt.buildGraph chainTasks) "A" 15, p.2 = 15) ∧
    "B" ∈ (Gantt.simulate_delay (Gantt.buildGraph chainTasks) "A" 15).map Prod.fst ∧
    "C" ∈ (Gantt.simulate_delay (Gantt.buildGraph chainTasks) "A" 15).map Prod.fst ∧
    "A" ∉ (Gantt.simulate_delay (Gantt.buildGraph chainTasks) "A" 15).map Prod.fst := by
  have hAB : Gantt.Step (Gantt.buildGraph chainTasks) "A" "B" := by
    unfold Gantt.Step
    decide
  have hBC : Gantt.Step (Gantt.buildGraph chainTasks) "B" "C" := by
    unfold Gantt.Step
    decide
  have h := (C6_simulate_delay_characterization chainTasks "A" 15).1 (by decide)
  refine ⟨h.1, ?_, ?_, ?_⟩
  · exact (h.2 "B").mpr ⟨by decide, Relation.ReflTransGen.single hAB⟩
  · exact (h.2 "C").mpr
      ⟨by decide, Relation.ReflTransGen.head hAB (Relation.ReflTransGen.single hBC)⟩
  · intro hcon
    exact ((h.2 "A").mp hcon).1 rfl

/-- C5: a returned auto-assignment winner is a non-ADMIN pool member with
a non-empty skill intersection, its score is maximal among all eligible
candidates, and every eligible candidate earlier in pool order scores
strictly lower (first-seen wins ties); moreover, when the pool holds any
eligible candidate with a nonnegative reliability input, a winner is
returned.  `autoAssign` is a pure function, so identical inputs yield the
identical winner. -/
theorem C5_auto_assignment_selection (pool : List Assign.Candidate)
    (t : Assign.TaskSpec) (hreq : t.requiredSkills ≠ []) :
    (∀ r, Assign.autoAssign pool t = some r →
      r ∈ pool ∧ Assign.Eligible r t ∧
      (∀ c ∈ pool, Assign.Eligible c t → Assign.score c t ≤ Assign.score r t) ∧
      ∃ m1 m2, pool = m1 ++ r :: m2 ∧
        ∀ x ∈ m1, Assign.Eligible x t → Assign.score x t < Assign.score r t) ∧
    ((∀ c ∈ pool, 0 ≤ c.reliabilityScore) → (∃ c ∈ pool, Assign.Eligible c t) →
      ∃ r, Assign.autoAssign pool t = some r) := by
  constructor
  · intro r h
    unfold Assign.autoAssign at h
    rcases selectLoop_spec t _ _ _ r h with ⟨hb, -⟩ | ⟨l1, l2, heq, hmr, -, hpre, hsuf⟩
    · exact absurd hb (by simp)
    · have hrcs : r ∈ pool.filter (fun c => c.role ≠ "ADMIN") := by
        rw [heq]
        exact List.mem_append_right l1 (List.mem_cons_self r l2)
      have hrpool : r ∈ pool := List.mem_of_mem_filter hrcs
      have hrrole : r.role ≠ "ADMIN" := by
        have := List.of_mem_filter hrcs
        simpa using this
      have hmemcs : ∀ c ∈ pool, Assign.Eligible c t →
          c ∈ pool.filter (fun c => c.role ≠ "ADMIN") := by
        intro c hc hel
        rw [List.mem_filter]
        exact ⟨hc, by simpa using hel.1⟩
      refine ⟨hrpool, ⟨hrrole, hmr⟩, ?_, ?_⟩
      · intro c hc hel
        have hcs := hmemcs c hc hel
        rw [heq] at hcs
        rcases List.mem_append.mp hcs with hl1 | hr2
        · exact le_of_lt (hpre c hl1 hel.2)
        · rcases List.mem_cons.mp hr2 with hcr | hl2
          · subst hcr
            exact le_refl _
          · exact hsuf c hl2 hel.2
      · obtain ⟨m1, m2, hsplit, hmem⟩ :=
          filter_split (fun c => c.role ≠ "ADMIN") pool l1 l2 r heq
        refine ⟨m1, m2, hsplit, ?_⟩
        intro x hx hel
        exact hpre x (hmem x hx (by simpa using hel.1)) hel.2
  · intro hrel ⟨c, hc, hel⟩
    unfold Assign.autoAssign
    apply selectLoop_total
    refine ⟨c, ?_, hel.2, ?_⟩
    · rw [List.mem_filter]
      exact ⟨hc, by simpa using hel.1⟩
    · have := score_nonneg c t (hrel c hc)
      linarith

/-- C5 witness: the end-to-end example — required skill python, a
python-skilled candidate of reliability 0.9 beside a java-only candidate
of reliability 0.99 — selects the python candidate. -/
theorem C5_auto_assignment_selection_witness :
    (cPy ∈ witPool ∧ Assign.Eligible cPy witTask ∧
      (∀ c ∈ witPool, Assign.Eligible c witTask →
        Assign.score c witTask ≤ Assign.score cPy witTask) ∧
      ∃ m1 m2, witPool = m1 ++ cPy :: m2 ∧
        ∀ x ∈ m1, Assign.Eligible x witTask →
          Assign.score x witTask < Assign.score cPy witTask) ∧
    ∃ r, Assign.autoAssign witPool witTask = some r :=
  ⟨(C5_auto_assignment_selection witPool witTask (by decide)).1 cPy
      (by with_unfolding_all decide),
    (C5_auto_assignment_selection witPool witTask (by decide)).2
      (by with_unfolding_all decide)
      ⟨cPy, by with_unfolding_all decide, by decide, by decide⟩⟩

end AEIP
